import Mathlib

set_option maxRecDepth 10000

/-
Verification of the four hash-set variants of this repository
(sequential, coarse-grained, striped, refinable), shallowly embedded.

Element type: the C++ classes are templated on a hashable, equality
comparable T; we instantiate T with Nat and pass std::hash<T> as an
explicit function argument `hash : Nat → Nat`.

State: each class's data members become a structure.  A bucket table
(std::vector<std::vector<T>>) is a List (List Nat); size_t counters are
Nat.  Mutexes carry no single-thread state content, so the striped and
refinable lock arrays are modelled by their length (a Nat field), which
is what the spec's lock-array invariants talk about.  Executions are
single-threaded sequences of operations; each member function becomes a
function of the state.
-/

/-- Shared constant: every variant declares `const size_t bucket_capacity_ = 4;`. -/
def bucket_capacity_ : Nat := 4

/-- Appending one element at the end of bucket `i` of a table:
`table_[bucket_index].push_back(elem)`. -/
def pushAt (t : List (List Nat)) (i : Nat) (e : Nat) : List (List Nat) :=
  t.set i (t.getD i [] ++ [e])

/-- The rehash loop that the body of every variant's `Resize` contains verbatim:
iterate over the old table's buckets in order, and push every element
into bucket `hash(elem) % new_table.size()` of a fresh table of `m`
empty buckets (`m` = `new_table.size()`, constant throughout the loop). -/
def rehash (hash : Nat → Nat) (m : Nat) (t : List (List Nat)) : List (List Nat) :=
  t.foldl
    (fun new_table bucket =>
      bucket.foldl (fun acc elem => pushAt acc (hash elem % m) elem) new_table)
    (List.replicate m ([] : List Nat))

/-- The spec's placement invariant: every element present in the table
resides in bucket `hash(e) mod capacity`, capacity being the table's
current bucket count. -/
def Bucketed (hash : Nat → Nat) (t : List (List Nat)) : Prop :=
  ∀ j x, x ∈ t.getD j [] → hash x % t.length = j

/-- Operations driving a single-threaded execution (Contains and Size do
not change state; FullOp below covers them). -/
inductive Op where
  | add (e : Nat)
  | remove (e : Nat)
deriving DecidableEq

/-- Full operation alphabet, for frame properties about Contains and Size. -/
inductive FullOp where
  | fadd (e : Nat)
  | fremove (e : Nat)
  | fcontains (e : Nat)
  | fsize
deriving DecidableEq

namespace HashSetSequential

/-- Data members of HashSetSequential: `set_size_` and `table_`. -/
structure State where
  set_size_ : Nat
  table_ : List (List Nat)
deriving DecidableEq

/-- Constructor: `set_size_(0), table_(initial_capacity)` — `initial_capacity`
empty buckets, no validation of the argument. -/
def mk (initial_capacity : Nat) : State :=
  { set_size_ := 0, table_ := List.replicate initial_capacity [] }

/-- `Contains`: look up `elem` in bucket `hash(elem) % table_.size()`. -/
def Contains (hash : Nat → Nat) (s : State) (elem : Nat) : Bool :=
  let bucket_index := hash elem % s.table_.length
  (s.table_.getD bucket_index []).contains elem

/-- `Policy`: true when `set_size_ / table_.size() > bucket_capacity_`
(integer division, as in the C++). -/
def Policy (s : State) : Bool :=
  s.set_size_ / s.table_.length > bucket_capacity_

/-- `Resize`: double the bucket count and rehash every element by
`hash(elem) % new_table.size()`; `set_size_` is untouched. -/
def Resize (hash : Nat → Nat) (s : State) : State :=
  let new_size := s.table_.length * 2
  { s with table_ := rehash hash new_size s.table_ }

/-- `Add`: return false if already present; otherwise push into bucket
`hash(elem) % table_.size()`, increment `set_size_`, then resize if
`Policy()` holds. -/
def Add (hash : Nat → Nat) (s : State) (elem : Nat) : Bool × State :=
  if Contains hash s elem then (false, s)
  else
    let bucket_index := hash elem % s.table_.length
    let s1 : State :=
      { set_size_ := s.set_size_ + 1, table_ := pushAt s.table_ bucket_index elem }
    if Policy s1 then (true, Resize hash s1) else (true, s1)

/-- `Remove`: return false if absent; otherwise erase every copy of `elem`
from its bucket (erase–remove idiom) and decrement `set_size_`. -/
def Remove (hash : Nat → Nat) (s : State) (elem : Nat) : Bool × State :=
  if !(Contains hash s elem) then (false, s)
  else
    let bucket_index := hash elem % s.table_.length
    let bucket := s.table_.getD bucket_index []
    (true,
      { set_size_ := s.set_size_ - 1,
        table_ := s.table_.set bucket_index (bucket.filter (fun x => x != elem)) })

/-- `Size`: return `set_size_`. -/
def Size (s : State) : Nat := s.set_size_

/-- One mutating operation. -/
def step (hash : Nat → Nat) (s : State) : Op → State
  | Op.add e => (Add hash s e).2
  | Op.remove e => (Remove hash s e).2

/-- A single-threaded run of mutating operations. -/
def run (hash : Nat → Nat) (s : State) (ops : List Op) : State :=
  ops.foldl (step hash) s

/-- State transformer of the full alphabet: the bodies of `Contains` and
`Size` assign no data member, so their state transformer is the identity. -/
def fullStep (hash : Nat → Nat) (s : State) : FullOp → State
  | FullOp.fadd e => (Add hash s e).2
  | FullOp.fremove e => (Remove hash s e).2
  | FullOp.fcontains _ => s
  | FullOp.fsize => s

/-- Contains with the modulo by a zero bucket count made explicit: the C++
`std::hash<T>()(elem) % table_.size()` is undefined behaviour when
`table_.size() == 0`, which this checked version reports as `none`. -/
def ContainsChecked (hash : Nat → Nat) (s : State) (elem : Nat) : Option Bool :=
  if s.table_.length = 0 then none else some (Contains hash s elem)

end HashSetSequential

namespace HashSetCoarseGrained

/-- Data members of HashSetCoarseGrained: `set_size_` (std::atomic<size_t>)
and `table_`; the global `mutex_` has no single-thread state content. -/
structure State where
  set_size_ : Nat
  table_ : List (List Nat)
deriving DecidableEq

/-- Constructor: `set_size_(0), table_(initial_capacity)`, no validation. -/
def mk (initial_capacity : Nat) : State :=
  { set_size_ := 0, table_ := List.replicate initial_capacity [] }

/-- `Contains`: under the global lock, copy the bucket
`hash(elem) % table_.size()` and search the copy; the result is that of
searching the stored bucket. -/
def Contains (hash : Nat → Nat) (s : State) (elem : Nat) : Bool :=
  let bucket_index := hash elem % s.table_.length
  (s.table_.getD bucket_index []).contains elem

/-- `Policy`: `set_size_ / table_.size() > bucket_capacity_` (the atomic
counter reads back its stored value). -/
def Policy (s : State) : Bool :=
  s.set_size_ / s.table_.length > bucket_capacity_

/-- `Resize`: identical loop to the sequential variant. -/
def Resize (hash : Nat → Nat) (s : State) : State :=
  let new_size := s.table_.length * 2
  { s with table_ := rehash hash new_size s.table_ }

/-- `Add`: call `Contains` (which takes and releases the lock), return false
if present; otherwise take the lock, push into bucket
`hash(elem) % table_.size()`, `set_size_.fetch_add(1)`, resize if `Policy()`. -/
def Add (hash : Nat → Nat) (s : State) (elem : Nat) : Bool × State :=
  if Contains hash s elem then (false, s)
  else
    let bucket_index := hash elem % s.table_.length
    let s1 : State :=
      { set_size_ := s.set_size_ + 1, table_ := pushAt s.table_ bucket_index elem }
    if Policy s1 then (true, Resize hash s1) else (true, s1)

/-- `Remove`: return false if absent.  Otherwise the C++ copies the bucket
(`std::vector<T> bucket = table_[bucket_index];`), runs `std::remove` over
the COPY, and then calls `table_[bucket_index].erase` with the copy's
iterators.  Passing another vector's iterators to `erase` is undefined
behaviour; reading those iterators by their positions (their offsets from
the copy's begin), `std::remove` leaves the kept elements in the first
`kept.length` positions and returns the iterator at offset `kept.length`,
so the erase removes positions `kept.length ..` of the STORED bucket —
i.e. the stored bucket is truncated to its first `kept.length` elements,
which does not in general remove `elem`.  `set_size_.fetch_sub(1)` still runs. -/
def Remove (hash : Nat → Nat) (s : State) (elem : Nat) : Bool × State :=
  if !(Contains hash s elem) then (false, s)
  else
    let bucket_index := hash elem % s.table_.length
    let bucket := s.table_.getD bucket_index []
    let kept := bucket.filter (fun x => x != elem)
    (true,
      { set_size_ := s.set_size_ - 1,
        table_ := s.table_.set bucket_index (bucket.take kept.length) })

/-- `Size`: `set_size_.load()`. -/
def Size (s : State) : Nat := s.set_size_

/-- One mutating operation. -/
def step (hash : Nat → Nat) (s : State) : Op → State
  | Op.add e => (Add hash s e).2
  | Op.remove e => (Remove hash s e).2

/-- A single-threaded run of mutating operations. -/
def run (hash : Nat → Nat) (s : State) (ops : List Op) : State :=
  ops.foldl (step hash) s

/-- State transformer of the full alphabet: `Contains` and `Size` assign no
data member, so their state transformer is the identity. -/
def fullStep (hash : Nat → Nat) (s : State) : FullOp → State
  | FullOp.fadd e => (Add hash s e).2
  | FullOp.fremove e => (Remove hash s e).2
  | FullOp.fcontains _ => s
  | FullOp.fsize => s

end HashSetCoarseGrained

namespace HashSetStriped

/-- Data members of HashSetStriped: `set_size_`, `capacity_` (both atomic),
`table_`, and the stripe lock array `mutexes_`, modelled by its length. -/
structure State where
  set_size_ : Nat
  capacity_ : Nat
  table_ : List (List Nat)
  mutexes_ : Nat
deriving DecidableEq

/-- Constructor: `set_size_(0), capacity_(initial_capacity),
table_(initial_capacity), mutexes_(initial_capacity)`, no validation. -/
def mk (initial_capacity : Nat) : State :=
  { set_size_ := 0, capacity_ := initial_capacity,
    table_ := List.replicate initial_capacity [], mutexes_ := initial_capacity }

/-- Private `Contains_`: look up `elem` in bucket `hash(elem) % capacity_.load()`. -/
def Contains_ (hash : Nat → Nat) (s : State) (elem : Nat) : Bool :=
  let bucket_index := hash elem % s.capacity_
  (s.table_.getD bucket_index []).contains elem

/-- Public `Contains`: acquire the element's stripe, then `Contains_`. -/
def Contains (hash : Nat → Nat) (s : State) (elem : Nat) : Bool :=
  Contains_ hash s elem

/-- `Policy`: `set_size_ / capacity_.load() > bucket_capacity_`. -/
def Policy (s : State) : Bool :=
  s.set_size_ / s.capacity_ > bucket_capacity_

/-- `Resize`: `old_size` is the capacity the caller read before acquiring
all stripes; if it no longer matches `capacity_`, another thread already
resized, so return with nothing changed.  Otherwise rehash into
`old_size * 2` buckets and store the new capacity.  `mutexes_` is never
touched in the striped variant. -/
def Resize (hash : Nat → Nat) (old_size : Nat) (s : State) : State :=
  if old_size ≠ s.capacity_ then s
  else
    let new_size := old_size * 2
    { s with capacity_ := new_size, table_ := rehash hash new_size s.table_ }

/-- `Add`: acquire the stripe, return false if present; otherwise push into
bucket `hash(elem) % capacity_.load()`, `fetch_add`, and if `Policy()`
holds unlock and call `Resize` (which re-reads `capacity_` as its
`old_size`). -/
def Add (hash : Nat → Nat) (s : State) (elem : Nat) : Bool × State :=
  if Contains_ hash s elem then (false, s)
  else
    let bucket_index := hash elem % s.capacity_
    let s1 : State :=
      { s with set_size_ := s.set_size_ + 1, table_ := pushAt s.table_ bucket_index elem }
    if Policy s1 then (true, Resize hash s1.capacity_ s1) else (true, s1)

/-- `Remove`: acquire the stripe, return false if absent; otherwise erase
every copy of `elem` from its bucket and `fetch_sub` the size. -/
def Remove (hash : Nat → Nat) (s : State) (elem : Nat) : Bool × State :=
  if !(Contains_ hash s elem) then (false, s)
  else
    let bucket_index := hash elem % s.capacity_
    let bucket := s.table_.getD bucket_index []
    (true,
      { s with set_size_ := s.set_size_ - 1,
               table_ := s.table_.set bucket_index (bucket.filter (fun x => x != elem)) })

/-- `Size`: `set_size_.load()`. -/
def Size (s : State) : Nat := s.set_size_

/-- One mutating operation. -/
def step (hash : Nat → Nat) (s : State) : Op → State
  | Op.add e => (Add hash s e).2
  | Op.remove e => (Remove hash s e).2

/-- A single-threaded run of mutating operations. -/
def run (hash : Nat → Nat) (s : State) (ops : List Op) : State :=
  ops.foldl (step hash) s

/-- State transformer of the full alphabet: `Contains` and `Size` assign no
data member, so their state transformer is the identity. -/
def fullStep (hash : Nat → Nat) (s : State) : FullOp → State
  | FullOp.fadd e => (Add hash s e).2
  | FullOp.fremove e => (Remove hash s e).2
  | FullOp.fcontains _ => s
  | FullOp.fsize => s

end HashSetStriped

namespace HashSetRefinable

/-- Data members of HashSetRefinable: `set_size_`, `capacity_`, `table_`,
the growable lock array `mutexes_` (modelled by its length), and the
structural `locks_mutex_` (no single-thread state content). -/
structure State where
  set_size_ : Nat
  capacity_ : Nat
  table_ : List (List Nat)
  mutexes_ : Nat
deriving DecidableEq

/-- Constructor: `set_size_(0), capacity_(initial_capacity),
table_(initial_capacity)`, then push `initial_capacity` mutexes. -/
def mk (initial_capacity : Nat) : State :=
  { set_size_ := 0, capacity_ := initial_capacity,
    table_ := List.replicate initial_capacity [], mutexes_ := initial_capacity }

/-- Private `Contains_`: look up `elem` in bucket `hash(elem) % capacity_.load()`. -/
def Contains_ (hash : Nat → Nat) (s : State) (elem : Nat) : Bool :=
  let bucket_index := hash elem % s.capacity_
  (s.table_.getD bucket_index []).contains elem

/-- Public `Contains`: shared coordinator lock plus the element's slot,
then `Contains_`. -/
def Contains (hash : Nat → Nat) (s : State) (elem : Nat) : Bool :=
  Contains_ hash s elem

/-- `Policy`: `set_size_ / capacity_.load() > bucket_capacity_`. -/
def Policy (s : State) : Bool :=
  s.set_size_ / s.capacity_ > bucket_capacity_

/-- `Resize`: `old_size` is the capacity read before taking the coordinator
exclusively and every slot; if it no longer matches `capacity_`, return
with nothing changed.  Otherwise rehash into `old_size * 2` buckets, push
`old_size` additional mutexes, and store the new capacity. -/
def Resize (hash : Nat → Nat) (old_size : Nat) (s : State) : State :=
  if old_size ≠ s.capacity_ then s
  else
    let new_size := old_size * 2
    { s with capacity_ := new_size,
             table_ := rehash hash new_size s.table_,
             mutexes_ := s.mutexes_ + old_size }

/-- `Add`: under the shared coordinator and the element's slot, return false
if present; otherwise push into bucket `hash(elem) % capacity_.load()`,
`fetch_add`, and if `Policy()` holds unlock both and call `Resize`. -/
def Add (hash : Nat → Nat) (s : State) (elem : Nat) : Bool × State :=
  if Contains_ hash s elem then (false, s)
  else
    let bucket_index := hash elem % s.capacity_
    let s1 : State :=
      { s with set_size_ := s.set_size_ + 1, table_ := pushAt s.table_ bucket_index elem }
    if Policy s1 then (true, Resize hash s1.capacity_ s1) else (true, s1)

/-- `Remove`: under the shared coordinator and the element's slot, return
false if absent; otherwise erase every copy of `elem` from its bucket and
`fetch_sub` the size. -/
def Remove (hash : Nat → Nat) (s : State) (elem : Nat) : Bool × State :=
  if !(Contains_ hash s elem) then (false, s)
  else
    let bucket_index := hash elem % s.capacity_
    let bucket := s.table_.getD bucket_index []
    (true,
      { s with set_size_ := s.set_size_ - 1,
               table_ := s.table_.set bucket_index (bucket.filter (fun x => x != elem)) })

/-- `Size`: `set_size_.load()`. -/
def Size (s : State) : Nat := s.set_size_

/-- One mutating operation. -/
def step (hash : Nat → Nat) (s : State) : Op → State
  | Op.add e => (Add hash s e).2
  | Op.remove e => (Remove hash s e).2

/-- A single-threaded run of mutating operations. -/
def run (hash : Nat → Nat) (s : State) (ops : List Op) : State :=
  ops.foldl (step hash) s

/-- State transformer of the full alphabet: `Contains` and `Size` assign no
data member, so their state transformer is the identity. -/
def fullStep (hash : Nat → Nat) (s : State) : FullOp → State
  | FullOp.fadd e => (Add hash s e).2
  | FullOp.fremove e => (Remove hash s e).2
  | FullOp.fcontains _ => s
  | FullOp.fsize => s

end HashSetRefinable

/-- Well-formedness of a striped state, true of every state the constructor
can reach with a positive capacity: the capacity is positive and `table_`
has `capacity_` buckets. -/
def StripedWF (s : HashSetStriped.State) : Prop :=
  0 < s.capacity_ ∧ s.capacity_ = s.table_.length

/-- Well-formedness of a refinable state: positive capacity and `table_`
has `capacity_` buckets. -/
def RefinableWF (s : HashSetRefinable.State) : Prop :=
  0 < s.capacity_ ∧ s.capacity_ = s.table_.length

/-- Actions on the coarse-grained variant's single `mutex_`, together with
the membership check (`std::find`) and the bucket mutation, in program
order. -/
inductive MEvent where
  | lockEv
  | unlockEv
  | checkEv
  | mutateEv
deriving DecidableEq, BEq

/-- True when some acquisition of the mutex happens after a membership
check in the given program-order event list. -/
def lockAfterCheck : List MEvent → Bool
  | [] => false
  | MEvent.checkEv :: rest => rest.contains MEvent.lockEv || lockAfterCheck rest
  | _ :: rest => lockAfterCheck rest

/-- The claimed discipline: the mutex is acquired before the membership
check and never after it. -/
def lockNeverAfterCheck (events : List MEvent) : Bool :=
  !(lockAfterCheck events)

/-- Program-order mutex events of `HashSetCoarseGrained::Add` on the
absent-element path: `Contains(elem)` constructs and destroys its own
`scoped_lock` around the `std::find`, and only then does `Add` construct
its own `scoped_lock` and push into the bucket. -/
def coarseGrainedAddEvents : List MEvent :=
  [MEvent.lockEv, MEvent.checkEv, MEvent.unlockEv,
   MEvent.lockEv, MEvent.mutateEv, MEvent.unlockEv]

/-- Program-order mutex events of `HashSetCoarseGrained::Remove` on the
present-element path: `Contains(elem)` locks, checks, unlocks; then
`Remove` locks again and erases. -/
def coarseGrainedRemoveEvents : List MEvent :=
  [MEvent.lockEv, MEvent.checkEv, MEvent.unlockEv,
   MEvent.lockEv, MEvent.mutateEv, MEvent.unlockEv]

theorem getD_set_self (t : List (List Nat)) (i : Nat) (b : List Nat) (h : i < t.length) :
    (t.set i b).getD i [] = b := by
  rw [List.getD_eq_getElem?_getD, List.getElem?_set_self h]
  rfl

theorem getD_set_ne (t : List (List Nat)) (i j : Nat) (b : List Nat) (h : i ≠ j) :
    (t.set i b).getD j [] = t.getD j [] := by
  rw [List.getD_eq_getElem?_getD, List.getElem?_set_ne h, ← List.getD_eq_getElem?_getD]

theorem getD_replicate_nil (m j : Nat) :
    (List.replicate m ([] : List Nat)).getD j [] = [] := by
  rw [List.getD_eq_getElem?_getD, List.getElem?_replicate]
  split <;> rfl

theorem getD_mem_of_lt (t : List (List Nat)) (i : Nat) (h : i < t.length) :
    t.getD i [] ∈ t := by
  rw [List.getD_eq_getElem?_getD]
  simp [List.getElem?_eq_getElem h]

theorem length_pushAt (t : List (List Nat)) (i : Nat) (e : Nat) :
    (pushAt t i e).length = t.length :=
  List.length_set t i _

theorem mem_getD_pushAt (t : List (List Nat)) (i : Nat) (e : Nat) (j x : Nat)
    (hi : i < t.length) :
    x ∈ (pushAt t i e).getD j [] ↔ x ∈ t.getD j [] ∨ (j = i ∧ x = e) := by
  by_cases hji : j = i
  · subst hji
    rw [pushAt, getD_set_self t j _ hi]
    simp
  · rw [pushAt, getD_set_ne t i j _ (fun hh => hji hh.symm)]
    simp [hji]

theorem mem_pushAt_self (t : List (List Nat)) (i : Nat) (e : Nat) (h : i < t.length) :
    e ∈ (pushAt t i e).getD i [] := by
  rw [pushAt, getD_set_self t i _ h]
  simp

theorem length_foldl_push (hash : Nat → Nat) (m : Nat) (elems : List Nat)
    (acc : List (List Nat)) :
    (elems.foldl (fun a e => pushAt a (hash e % m) e) acc).length = acc.length := by
  induction elems generalizing acc with
  | nil => rfl
  | cons e rest ih => rw [List.foldl_cons, ih, length_pushAt]

theorem mem_foldl_push (hash : Nat → Nat) (m : Nat) (hm : 0 < m) (elems : List Nat)
    (acc : List (List Nat)) (hlen : acc.length = m) (j x : Nat) :
    x ∈ (elems.foldl (fun a e => pushAt a (hash e % m) e) acc).getD j [] ↔
      x ∈ acc.getD j [] ∨ (x ∈ elems ∧ j = hash x % m) := by
  induction elems generalizing acc with
  | nil => simp
  | cons e rest ih =>
    rw [List.foldl_cons]
    have hlen' : (pushAt acc (hash e % m) e).length = m := by rw [length_pushAt, hlen]
    rw [ih _ hlen']
    have hi : hash e % m < acc.length := by rw [hlen]; exact Nat.mod_lt _ hm
    rw [mem_getD_pushAt _ _ _ _ _ hi]
    simp only [List.mem_cons]
    constructor
    · rintro ((h | ⟨hj, rfl⟩) | ⟨hx, hj⟩)
      · exact Or.inl h
      · exact Or.inr ⟨Or.inl rfl, hj⟩
      · exact Or.inr ⟨Or.inr hx, hj⟩
    · rintro (h | ⟨(rfl | hx), hj⟩)
      · exact Or.inl (Or.inl h)
      · exact Or.inl (Or.inr ⟨hj, rfl⟩)
      · exact Or.inr ⟨hx, hj⟩

theorem foldl_buckets_eq_flatten (hash : Nat → Nat) (m : Nat) (t : List (List Nat))
    (acc : List (List Nat)) :
    t.foldl (fun a bucket => bucket.foldl (fun a2 e => pushAt a2 (hash e % m) e) a) acc
      = t.flatten.foldl (fun a e => pushAt a (hash e % m) e) acc := by
  induction t generalizing acc with
  | nil => rfl
  | cons b rest ih => rw [List.foldl_cons, List.flatten_cons, List.foldl_append, ih]

theorem length_rehash (hash : Nat → Nat) (m : Nat) (t : List (List Nat)) :
    (rehash hash m t).length = m := by
  rw [rehash, foldl_buckets_eq_flatten, length_foldl_push, List.length_replicate]

theorem mem_getD_rehash (hash : Nat → Nat) (m : Nat) (hm : 0 < m) (t : List (List Nat))
    (j x : Nat) :
    x ∈ (rehash hash m t).getD j [] ↔ (∃ b ∈ t, x ∈ b) ∧ j = hash x % m := by
  rw [rehash, foldl_buckets_eq_flatten,
    mem_foldl_push hash m hm _ _ (List.length_replicate m []), getD_replicate_nil]
  simp [List.mem_flatten]

theorem mem_rehash_of_mem (hash : Nat → Nat) (m : Nat) (hm : 0 < m) (t : List (List Nat))
    (e : Nat) (hmem : ∃ b ∈ t, e ∈ b) :
    e ∈ (rehash hash m t).getD (hash e % m) [] := by
  rw [mem_getD_rehash hash m hm]
  exact ⟨hmem, rfl⟩

theorem bucketed_replicate (hash : Nat → Nat) (m : Nat) :
    Bucketed hash (List.replicate m ([] : List Nat)) := by
  intro j x hx
  rw [getD_replicate_nil] at hx
  cases hx

theorem bucketed_rehash (hash : Nat → Nat) (m : Nat) (hm : 0 < m) (t : List (List Nat)) :
    Bucketed hash (rehash hash m t) := by
  intro j x hx
  rw [mem_getD_rehash hash m hm] at hx
  rw [length_rehash]
  exact hx.2.symm

theorem bucketed_pushAt (hash : Nat → Nat) (t : List (List Nat)) (e : Nat)
    (ht : Bucketed hash t) (hlen : 0 < t.length) :
    Bucketed hash (pushAt t (hash e % t.length) e) := by
  intro j x hx
  have hi : hash e % t.length < t.length := Nat.mod_lt _ hlen
  rw [mem_getD_pushAt _ _ _ _ _ hi] at hx
  rw [length_pushAt]
  rcases hx with hx | ⟨rfl, rfl⟩
  · exact ht j x hx
  · rfl

theorem bucketed_set_subset (hash : Nat → Nat) (t : List (List Nat)) (i : Nat)
    (b : List Nat) (ht : Bucketed hash t) (hsub : ∀ x, x ∈ b → x ∈ t.getD i []) :
    Bucketed hash (t.set i b) := by
  intro j x hx
  rw [List.length_set]
  by_cases hlt : i < t.length
  · by_cases hji : i = j
    · subst hji
      rw [getD_set_self _ _ _ hlt] at hx
      exact ht i x (hsub x hx)
    · rw [getD_set_ne _ _ _ _ hji] at hx
      exact ht j x hx
  · rw [List.set_eq_of_length_le (Nat.le_of_not_lt hlt)] at hx
    exact ht j x hx

theorem contains_iff_mem (l : List Nat) (e : Nat) : l.contains e = true ↔ e ∈ l := by
  simp [List.contains]

theorem seq_contains_of_mem (hash : Nat → Nat) (s : HashSetSequential.State) (e : Nat)
    (h : e ∈ s.table_.getD (hash e % s.table_.length) []) :
    HashSetSequential.Contains hash s e = true := by
  simp only [HashSetSequential.Contains]
  rw [contains_iff_mem]
  exact h

theorem seq_contains_resize_of_mem (hash : Nat → Nat) (s : HashSetSequential.State) (e : Nat)
    (hlen : 0 < s.table_.length) (h : ∃ b ∈ s.table_, e ∈ b) :
    HashSetSequential.Contains hash (HashSetSequential.Resize hash s) e = true := by
  have hm : 0 < s.table_.length * 2 := by omega
  simp only [HashSetSequential.Contains, HashSetSequential.Resize]
  rw [contains_iff_mem, length_rehash]
  exact mem_rehash_of_mem hash _ hm _ e h

theorem seq_add_present (hash : Nat → Nat) (s : HashSetSequential.State) (e : Nat)
    (h : HashSetSequential.Contains hash s e = true) :
    HashSetSequential.Add hash s e = (false, s) := by
  simp [HashSetSequential.Add, h]

theorem seq_add_absent (hash : Nat → Nat) (s : HashSetSequential.State) (e : Nat)
    (hlen : 0 < s.table_.length) (h : HashSetSequential.Contains hash s e = false) :
    (HashSetSequential.Add hash s e).1 = true ∧
    HashSetSequential.Contains hash (HashSetSequential.Add hash s e).2 e = true := by
  have hj : hash e % s.table_.length < s.table_.length := Nat.mod_lt _ hlen
  simp only [HashSetSequential.Add, h, Bool.false_eq_true, if_false]
  split
  · refine ⟨rfl, ?_⟩
    refine seq_contains_resize_of_mem hash _ e (by rw [length_pushAt]; exact hlen) ?_
    exact ⟨_, getD_mem_of_lt _ (hash e % s.table_.length) (by rw [length_pushAt]; exact hj),
      mem_pushAt_self s.table_ _ e hj⟩
  · refine ⟨rfl, ?_⟩
    refine seq_contains_of_mem hash _ e ?_
    rw [length_pushAt]
    exact mem_pushAt_self s.table_ _ e hj

theorem coarse_contains_of_mem (hash : Nat → Nat) (s : HashSetCoarseGrained.State) (e : Nat)
    (h : e ∈ s.table_.getD (hash e % s.table_.length) []) :
    HashSetCoarseGrained.Contains hash s e = true := by
  simp only [HashSetCoarseGrained.Contains]
  rw [contains_iff_mem]
  exact h

theorem coarse_contains_resize_of_mem (hash : Nat → Nat) (s : HashSetCoarseGrained.State)
    (e : Nat) (hlen : 0 < s.table_.length) (h : ∃ b ∈ s.table_, e ∈ b) :
    HashSetCoarseGrained.Contains hash (HashSetCoarseGrained.Resize hash s) e = true := by
  have hm : 0 < s.table_.length * 2 := by omega
  simp only [HashSetCoarseGrained.Contains, HashSetCoarseGrained.Resize]
  rw [contains_iff_mem, length_rehash]
  exact mem_rehash_of_mem hash _ hm _ e h

theorem coarse_add_present (hash : Nat → Nat) (s : HashSetCoarseGrained.State) (e : Nat)
    (h : HashSetCoarseGrained.Contains hash s e = true) :
    HashSetCoarseGrained.Add hash s e = (false, s) := by
  simp [HashSetCoarseGrained.Add, h]

theorem coarse_add_absent (hash : Nat → Nat) (s : HashSetCoarseGrained.State) (e : Nat)
    (hlen : 0 < s.table_.length) (h : HashSetCoarseGrained.Contains hash s e = false) :
    (HashSetCoarseGrained.Add hash s e).1 = true ∧
    HashSetCoarseGrained.Contains hash (HashSetCoarseGrained.Add hash s e).2 e = true := by
  have hj : hash e % s.table_.length < s.table_.length := Nat.mod_lt _ hlen
  simp only [HashSetCoarseGrained.Add, h, Bool.false_eq_true, if_false]
  split
  · refine ⟨rfl, ?_⟩
    refine coarse_contains_resize_of_mem hash _ e (by rw [length_pushAt]; exact hlen) ?_
    exact ⟨_, getD_mem_of_lt _ (hash e % s.table_.length) (by rw [length_pushAt]; exact hj),
      mem_pushAt_self s.table_ _ e hj⟩
  · refine ⟨rfl, ?_⟩
    refine coarse_contains_of_mem hash _ e ?_
    rw [length_pushAt]
    exact mem_pushAt_self s.table_ _ e hj

theorem striped_contains_of_mem (hash : Nat → Nat) (s : HashSetStriped.State) (e : Nat)
    (h : e ∈ s.table_.getD (hash e % s.capacity_) []) :
    HashSetStriped.Contains hash s e = true := by
  simp only [HashSetStriped.Contains, HashSetStriped.Contains_]
  rw [contains_iff_mem]
  exact h

theorem striped_contains_resize_of_mem (hash : Nat → Nat) (s : HashSetStriped.State) (e : Nat)
    (hpos : 0 < s.capacity_) (h : ∃ b ∈ s.table_, e ∈ b) :
    HashSetStriped.Contains hash (HashSetStriped.Resize hash s.capacity_ s) e = true := by
  have hm : 0 < s.capacity_ * 2 := by omega
  simp only [HashSetStriped.Resize]
  rw [if_neg (by simp)]
  simp only [HashSetStriped.Contains, HashSetStriped.Contains_]
  rw [contains_iff_mem]
  exact mem_rehash_of_mem hash _ hm _ e h

theorem striped_add_present (hash : Nat → Nat) (s : HashSetStriped.State) (e : Nat)
    (h : HashSetStriped.Contains_ hash s e = true) :
    HashSetStriped.Add hash s e = (false, s) := by
  simp [HashSetStriped.Add, h]

theorem striped_add_absent (hash : Nat → Nat) (s : HashSetStriped.State) (e : Nat)
    (hwf : StripedWF s) (h : HashSetStriped.Contains_ hash s e = false) :
    (HashSetStriped.Add hash s e).1 = true ∧
    HashSetStriped.Contains hash (HashSetStriped.Add hash s e).2 e = true := by
  obtain ⟨hpos, hceq⟩ := hwf
  have hj : hash e % s.capacity_ < s.table_.length := hceq ▸ Nat.mod_lt _ hpos
  simp only [HashSetStriped.Add, h, Bool.false_eq_true, if_false]
  split
  · refine ⟨rfl, ?_⟩
    refine striped_contains_resize_of_mem hash
      { s with set_size_ := s.set_size_ + 1,
               table_ := pushAt s.table_ (hash e % s.capacity_) e } e hpos ?_
    exact ⟨_, getD_mem_of_lt _ (hash e % s.capacity_) (by rw [length_pushAt]; exact hj),
      mem_pushAt_self s.table_ _ e hj⟩
  · refine ⟨rfl, ?_⟩
    refine striped_contains_of_mem hash _ e ?_
    exact mem_pushAt_self s.table_ _ e hj

theorem refinable_contains_of_mem (hash : Nat → Nat) (s : HashSetRefinable.State) (e : Nat)
    (h : e ∈ s.table_.getD (hash e % s.capacity_) []) :
    HashSetRefinable.Contains hash s e = true := by
  simp only [HashSetRefinable.Contains, HashSetRefinable.Contains_]
  rw [contains_iff_mem]
  exact h

theorem refinable_contains_resize_of_mem (hash : Nat → Nat) (s : HashSetRefinable.State)
    (e : Nat) (hpos : 0 < s.capacity_) (h : ∃ b ∈ s.table_, e ∈ b) :
    HashSetRefinable.Contains hash (HashSetRefinable.Resize hash s.capacity_ s) e = true := by
  have hm : 0 < s.capacity_ * 2 := by omega
  simp only [HashSetRefinable.Resize]
  rw [if_neg (by simp)]
  simp only [HashSetRefinable.Contains, HashSetRefinable.Contains_]
  rw [contains_iff_mem]
  exact mem_rehash_of_mem hash _ hm _ e h

theorem refinable_add_present (hash : Nat → Nat) (s : HashSetRefinable.State) (e : Nat)
    (h : HashSetRefinable.Contains_ hash s e = true) :
    HashSetRefinable.Add hash s e = (false, s) := by
  simp [HashSetRefinable.Add, h]

theorem refinable_add_absent (hash : Nat → Nat) (s : HashSetRefinable.State) (e : Nat)
    (hwf : RefinableWF s) (h : HashSetRefinable.Contains_ hash s e = false) :
    (HashSetRefinable.Add hash s e).1 = true ∧
    HashSetRefinable.Contains hash (HashSetRefinable.Add hash s e).2 e = true := by
  obtain ⟨hpos, hceq⟩ := hwf
  have hj : hash e % s.capacity_ < s.table_.length := hceq ▸ Nat.mod_lt _ hpos
  simp only [HashSetRefinable.Add, h, Bool.false_eq_true, if_false]
  split
  · refine ⟨rfl, ?_⟩
    refine refinable_contains_resize_of_mem hash
      { s with set_size_ := s.set_size_ + 1,
               table_ := pushAt s.table_ (hash e % s.capacity_) e } e hpos ?_
    exact ⟨_, getD_mem_of_lt _ (hash e % s.capacity_) (by rw [length_pushAt]; exact hj),
      mem_pushAt_self s.table_ _ e hj⟩
  · refine ⟨rfl, ?_⟩
    refine refinable_contains_of_mem hash _ e ?_
    exact mem_pushAt_self s.table_ _ e hj

theorem seq_wf_add (hash : Nat → Nat) (s : HashSetSequential.State) (e : Nat)
    (hlen : 0 < s.table_.length) (hb : Bucketed hash s.table_) :
    0 < (HashSetSequential.Add hash s e).2.table_.length ∧
    Bucketed hash (HashSetSequential.Add hash s e).2.table_ := by
  cases hc : HashSetSequential.Contains hash s e with
  | true => rw [seq_add_present hash s e hc]; exact ⟨hlen, hb⟩
  | false =>
    simp only [HashSetSequential.Add, hc, Bool.false_eq_true, if_false]
    split
    · refine ⟨?_, ?_⟩
      · show 0 < (HashSetSequential.Resize hash _).table_.length
        simp only [HashSetSequential.Resize]
        rw [length_rehash, length_pushAt]
        omega
      · show Bucketed hash (HashSetSequential.Resize hash _).table_
        simp only [HashSetSequential.Resize]
        exact bucketed_rehash hash _ (by rw [length_pushAt]; omega) _
    · refine ⟨?_, ?_⟩
      · show 0 < (pushAt s.table_ (hash e % s.table_.length) e).length
        rw [length_pushAt]
        exact hlen
      · exact bucketed_pushAt hash s.table_ e hb hlen

theorem seq_wf_remove (hash : Nat → Nat) (s : HashSetSequential.State) (e : Nat)
    (hlen : 0 < s.table_.length) (hb : Bucketed hash s.table_) :
    0 < (HashSetSequential.Remove hash s e).2.table_.length ∧
    Bucketed hash (HashSetSequential.Remove hash s e).2.table_ := by
  cases hc : HashSetSequential.Contains hash s e with
  | false => simp only [HashSetSequential.Remove, hc, Bool.not_false, if_true]; exact ⟨hlen, hb⟩
  | true =>
    simp only [HashSetSequential.Remove, hc, Bool.not_true, Bool.false_eq_true, if_false]
    refine ⟨?_, ?_⟩
    · show 0 < (s.table_.set _ _).length
      rw [List.length_set]
      exact hlen
    · refine bucketed_set_subset hash s.table_ _ _ hb ?_
      intro x hx
      exact (List.mem_filter.mp hx).1

theorem seq_wf_run (hash : Nat → Nat) (ops : List Op) (s : HashSetSequential.State)
    (hlen : 0 < s.table_.length) (hb : Bucketed hash s.table_) :
    0 < (HashSetSequential.run hash s ops).table_.length ∧
    Bucketed hash (HashSetSequential.run hash s ops).table_ := by
  induction ops generalizing s with
  | nil => exact ⟨hlen, hb⟩
  | cons op rest ih =>
    show 0 < (HashSetSequential.run hash (HashSetSequential.step hash s op) rest).table_.length ∧ _
    cases op with
    | add e =>
      obtain ⟨h1, h2⟩ := seq_wf_add hash s e hlen hb
      exact ih _ h1 h2
    | remove e =>
      obtain ⟨h1, h2⟩ := seq_wf_remove hash s e hlen hb
      exact ih _ h1 h2

theorem refinable_mutexes_add (hash : Nat → Nat) (s : HashSetRefinable.State) (e : Nat)
    (h : s.mutexes_ = s.capacity_) :
    (HashSetRefinable.Add hash s e).2.mutexes_ = (HashSetRefinable.Add hash s e).2.capacity_ := by
  cases hc : HashSetRefinable.Contains_ hash s e with
  | true => rw [refinable_add_present hash s e hc]; exact h
  | false =>
    simp only [HashSetRefinable.Add, hc, Bool.false_eq_true, if_false]
    split
    · show (HashSetRefinable.Resize hash _ _).mutexes_ = (HashSetRefinable.Resize hash _ _).capacity_
      simp only [HashSetRefinable.Resize]
      rw [if_neg (by simp)]
      show s.mutexes_ + s.capacity_ = s.capacity_ * 2
      omega
    · exact h

theorem refinable_mutexes_remove (hash : Nat → Nat) (s : HashSetRefinable.State) (e : Nat)
    (h : s.mutexes_ = s.capacity_) :
    (HashSetRefinable.Remove hash s e).2.mutexes_
      = (HashSetRefinable.Remove hash s e).2.capacity_ := by
  cases hc : HashSetRefinable.Contains_ hash s e with
  | false => simp only [HashSetRefinable.Remove, hc, Bool.not_false, if_true]; exact h
  | true =>
    simp only [HashSetRefinable.Remove, hc, Bool.not_true, Bool.false_eq_true, if_false]
    exact h

theorem refinable_mutexes_run (hash : Nat → Nat) (ops : List Op)
    (s : HashSetRefinable.State) (h : s.mutexes_ = s.capacity_) :
    (HashSetRefinable.run hash s ops).mutexes_ = (HashSetRefinable.run hash s ops).capacity_ := by
  induction ops generalizing s with
  | nil => exact h
  | cons op rest ih =>
    show (HashSetRefinable.run hash (HashSetRefinable.step hash s op) rest).mutexes_ = _
    cases op with
    | add e => exact ih _ (refinable_mutexes_add hash s e h)
    | remove e => exact ih _ (refinable_mutexes_remove hash s e h)

theorem seq_remove_false_frame (hash : Nat → Nat) (s : HashSetSequential.State) (e : Nat)
    (h : (HashSetSequential.Remove hash s e).1 = false) :
    (HashSetSequential.Remove hash s e).2 = s := by
  cases hc : HashSetSequential.Contains hash s e with
  | false => simp [HashSetSequential.Remove, hc]
  | true => simp [HashSetSequential.Remove, hc] at h

theorem coarse_remove_false_frame (hash : Nat → Nat) (s : HashSetCoarseGrained.State) (e : Nat)
    (h : (HashSetCoarseGrained.Remove hash s e).1 = false) :
    (HashSetCoarseGrained.Remove hash s e).2 = s := by
  cases hc : HashSetCoarseGrained.Contains hash s e with
  | false => simp [HashSetCoarseGrained.Remove, hc]
  | true => simp [HashSetCoarseGrained.Remove, hc] at h

theorem striped_remove_false_frame (hash : Nat → Nat) (s : HashSetStriped.State) (e : Nat)
    (h : (HashSetStriped.Remove hash s e).1 = false) :
    (HashSetStriped.Remove hash s e).2 = s := by
  cases hc : HashSetStriped.Contains_ hash s e with
  | false => simp [HashSetStriped.Remove, hc]
  | true => simp [HashSetStriped.Remove, hc] at h

theorem refinable_remove_false_frame (hash : Nat → Nat) (s : HashSetRefinable.State) (e : Nat)
    (h : (HashSetRefinable.Remove hash s e).1 = false) :
    (HashSetRefinable.Remove hash s e).2 = s := by
  cases hc : HashSetRefinable.Contains_ hash s e with
  | false => simp [HashSetRefinable.Remove, hc]
  | true => simp [HashSetRefinable.Remove, hc] at h

theorem striped_resize_abort (hash : Nat → Nat) (old_size : Nat) (s : HashSetStriped.State)
    (h : old_size ≠ s.capacity_) :
    HashSetStriped.Resize hash old_size s = s := by
  rw [HashSetStriped.Resize, if_pos h]

theorem refinable_resize_abort (hash : Nat → Nat) (old_size : Nat) (s : HashSetRefinable.State)
    (h : old_size ≠ s.capacity_) :
    HashSetRefinable.Resize hash old_size s = s := by
  rw [HashSetRefinable.Resize, if_pos h]

theorem seq_mem_of_contains (hash : Nat → Nat) (s : HashSetSequential.State) (e : Nat)
    (hlen : 0 < s.table_.length) (h : HashSetSequential.Contains hash s e = true) :
    ∃ b ∈ s.table_, e ∈ b := by
  have hj : hash e % s.table_.length < s.table_.length := Nat.mod_lt _ hlen
  simp only [HashSetSequential.Contains] at h
  rw [contains_iff_mem] at h
  exact ⟨_, getD_mem_of_lt _ _ hj, h⟩

theorem striped_mem_of_contains (hash : Nat → Nat) (s : HashSetStriped.State) (e : Nat)
    (hwf : StripedWF s) (h : HashSetStriped.Contains hash s e = true) :
    ∃ b ∈ s.table_, e ∈ b := by
  obtain ⟨hpos, hceq⟩ := hwf
  have hj : hash e % s.capacity_ < s.table_.length := hceq ▸ Nat.mod_lt _ hpos
  simp only [HashSetStriped.Contains, HashSetStriped.Contains_] at h
  rw [contains_iff_mem] at h
  exact ⟨_, getD_mem_of_lt _ _ hj, h⟩

/-- C1: for every variant (sequential, coarse-grained, striped, refinable)
and every element, `Add` returns true if the element was absent and the
element is present afterwards; `Add` returns false if the element was
already present and leaves the entire state (table contents, capacity,
size) unchanged. -/
theorem C1_add_contract (hash : Nat → Nat)
    (q qp : HashSetSequential.State) (c cp : HashSetCoarseGrained.State)
    (s sp : HashSetStriped.State) (r rp : HashSetRefinable.State) (e : Nat)
    (hq : 0 < q.table_.length) (hqa : HashSetSequential.Contains hash q e = false)
    (hqp : HashSetSequential.Contains hash qp e = true)
    (hc : 0 < c.table_.length) (hca : HashSetCoarseGrained.Contains hash c e = false)
    (hcp : HashSetCoarseGrained.Contains hash cp e = true)
    (hs : StripedWF s) (hsa : HashSetStriped.Contains hash s e = false)
    (hsp : HashSetStriped.Contains hash sp e = true)
    (hr : RefinableWF r) (hra : HashSetRefinable.Contains hash r e = false)
    (hrp : HashSetRefinable.Contains hash rp e = true) :
    ((HashSetSequential.Add hash q e).1 = true ∧
      HashSetSequential.Contains hash (HashSetSequential.Add hash q e).2 e = true) ∧
    HashSetSequential.Add hash qp e = (false, qp) ∧
    ((HashSetCoarseGrained.Add hash c e).1 = true ∧
      HashSetCoarseGrained.Contains hash (HashSetCoarseGrained.Add hash c e).2 e = true) ∧
    HashSetCoarseGrained.Add hash cp e = (false, cp) ∧
    ((HashSetStriped.Add hash s e).1 = true ∧
      HashSetStriped.Contains hash (HashSetStriped.Add hash s e).2 e = true) ∧
    HashSetStriped.Add hash sp e = (false, sp) ∧
    ((HashSetRefinable.Add hash r e).1 = true ∧
      HashSetRefinable.Contains hash (HashSetRefinable.Add hash r e).2 e = true) ∧
    HashSetRefinable.Add hash rp e = (false, rp) :=
  ⟨seq_add_absent hash q e hq hqa, seq_add_present hash qp e hqp,
   coarse_add_absent hash c e hc hca, coarse_add_present hash cp e hcp,
   striped_add_absent hash s e hs hsa, striped_add_present hash sp e hsp,
   refinable_add_absent hash r e hr hra, refinable_add_present hash rp e hrp⟩

/-- Witness for C1 at hash = identity, capacity 1, element 5: the absent
states are freshly constructed, the present states hold 5 in bucket 0. -/
theorem C1_add_contract_witness :
    ((HashSetSequential.Add (fun x => x) (HashSetSequential.mk 1) 5).1 = true ∧
      HashSetSequential.Contains (fun x => x)
        (HashSetSequential.Add (fun x => x) (HashSetSequential.mk 1) 5).2 5 = true) ∧
    HashSetSequential.Add (fun x => x) ⟨1, [[5]]⟩ 5 = (false, (⟨1, [[5]]⟩ : HashSetSequential.State)) ∧
    ((HashSetCoarseGrained.Add (fun x => x) (HashSetCoarseGrained.mk 1) 5).1 = true ∧
      HashSetCoarseGrained.Contains (fun x => x)
        (HashSetCoarseGrained.Add (fun x => x) (HashSetCoarseGrained.mk 1) 5).2 5 = true) ∧
    HashSetCoarseGrained.Add (fun x => x) ⟨1, [[5]]⟩ 5
      = (false, (⟨1, [[5]]⟩ : HashSetCoarseGrained.State)) ∧
    ((HashSetStriped.Add (fun x => x) (HashSetStriped.mk 1) 5).1 = true ∧
      HashSetStriped.Contains (fun x => x)
        (HashSetStriped.Add (fun x => x) (HashSetStriped.mk 1) 5).2 5 = true) ∧
    HashSetStriped.Add (fun x => x) ⟨1, 1, [[5]], 1⟩ 5
      = (false, (⟨1, 1, [[5]], 1⟩ : HashSetStriped.State)) ∧
    ((HashSetRefinable.Add (fun x => x) (HashSetRefinable.mk 1) 5).1 = true ∧
      HashSetRefinable.Contains (fun x => x)
        (HashSetRefinable.Add (fun x => x) (HashSetRefinable.mk 1) 5).2 5 = true) ∧
    HashSetRefinable.Add (fun x => x) ⟨1, 1, [[5]], 1⟩ 5
      = (false, (⟨1, 1, [[5]], 1⟩ : HashSetRefinable.State)) :=
  C1_add_contract (fun x => x) (HashSetSequential.mk 1) ⟨1, [[5]]⟩
    (HashSetCoarseGrained.mk 1) ⟨1, [[5]]⟩ (HashSetStriped.mk 1) ⟨1, 1, [[5]], 1⟩
    (HashSetRefinable.mk 1) ⟨1, 1, [[5]], 1⟩ 5
    (by decide) (by decide) (by decide) (by decide) (by decide) (by decide)
    (by exact ⟨by decide, by decide⟩) (by decide) (by decide)
    (by exact ⟨by decide, by decide⟩) (by decide) (by decide)

/-- C2 (code bug in the coarse-grained variant): with identity hashing and
one bucket holding [1, 2, 3], `Remove 2` reports true and decrements the
size counter to 2, yet 2 is still in the set afterwards (`Contains 2` is
true): the C++ hands `table_[i].erase` iterators of a local copy of the
bucket, which (read positionally) truncates the stored bucket to [1, 2]
instead of erasing 2. -/
theorem C2_coarse_remove_leaves_element_behind :
    (HashSetCoarseGrained.Remove (fun x => x)
      (HashSetCoarseGrained.run (fun x => x) (HashSetCoarseGrained.mk 1)
        [Op.add 1, Op.add 2, Op.add 3]) 2).1 = true ∧
    (HashSetCoarseGrained.Remove (fun x => x)
      (HashSetCoarseGrained.run (fun x => x) (HashSetCoarseGrained.mk 1)
        [Op.add 1, Op.add 2, Op.add 3]) 2).2.set_size_ = 2 ∧
    HashSetCoarseGrained.Contains (fun x => x)
      (HashSetCoarseGrained.Remove (fun x => x)
        (HashSetCoarseGrained.run (fun x => x) (HashSetCoarseGrained.mk 1)
          [Op.add 1, Op.add 2, Op.add 3]) 2).2 2 = true := by
  refine ⟨by decide, by decide, by decide⟩

/-- C3 counterexample: with initial capacity 4 (threshold 4) and identity
hashing, sequentially adding the 17 distinct elements 0..16 leaves the
capacity at 4 — the 17th add does NOT trigger a resize to 8, because
`Policy` uses integer division (17 / 4 = 4, not > 4). -/
theorem C3_seventeenth_add_does_not_resize :
    (HashSetSequential.run (fun x => x) (HashSetSequential.mk 4)
      ((List.range 17).map Op.add)).set_size_ = 17 ∧
    (HashSetSequential.run (fun x => x) (HashSetSequential.mk 4)
      ((List.range 17).map Op.add)).table_.length = 4 := by
  refine ⟨by decide, by decide⟩

/-- C3 amended: with initial capacity 4 and threshold 4, adding up to 19
distinct identity-hashed elements causes no resize (capacity stays 4);
the 20th add is the first to make `Policy` true (20 / 4 = 5 > 4) and
triggers exactly one resize to capacity 8, after which all 20 elements
are retrievable via `Contains` and each resides in bucket `e mod 8`. -/
theorem C3_resize_happens_at_twenty :
    (HashSetSequential.run (fun x => x) (HashSetSequential.mk 4)
      ((List.range 19).map Op.add)).table_.length = 4 ∧
    (HashSetSequential.run (fun x => x) (HashSetSequential.mk 4)
      ((List.range 20).map Op.add)).set_size_ = 20 ∧
    (HashSetSequential.run (fun x => x) (HashSetSequential.mk 4)
      ((List.range 20).map Op.add)).table_.length = 8 ∧
    (∀ e, e < 20 →
      HashSetSequential.Contains (fun x => x)
        (HashSetSequential.run (fun x => x) (HashSetSequential.mk 4)
          ((List.range 20).map Op.add)) e = true ∧
      e ∈ (HashSetSequential.run (fun x => x) (HashSetSequential.mk 4)
        ((List.range 20).map Op.add)).table_.getD (e % 8) []) := by
  refine ⟨by decide, by decide, by decide, by decide⟩

/-- C4 (code bug): constructing with `initial_capacity = 0` is not rejected
by any variant — each constructor yields a zero-bucket instance, and the
first `Contains`/`Add` on it reaches `hash(elem) % table_.size()` with
`table_.size() == 0` (the checked lookup reports the division by a zero
bucket count as `none`). -/
theorem C4_zero_capacity_not_rejected :
    (HashSetSequential.mk 0).table_.length = 0 ∧
    HashSetSequential.ContainsChecked (fun x => x) (HashSetSequential.mk 0) 7 = none ∧
    (HashSetCoarseGrained.mk 0).table_.length = 0 ∧
    (HashSetStriped.mk 0).capacity_ = 0 ∧
    (HashSetRefinable.mk 0).capacity_ = 0 ∧
    (HashSetRefinable.mk 0).mutexes_ = 0 := by
  refine ⟨by decide, by decide, by decide, by decide, by decide, by decide⟩

/-- C5: every sequential state reachable by Add/Remove from a positive
initial capacity keeps every element in bucket `hash(e) mod capacity`;
and every element present immediately before a resize (sequential, or a
striped resize that passes its capacity check) is retrievable via
`Contains` immediately after it and resides in bucket
`hash(e) mod new_capacity`. -/
theorem C5_bucket_invariant (hash : Nat → Nat) (cap : Nat) (ops : List Op)
    (s : HashSetSequential.State) (t : HashSetStriped.State) (e f : Nat)
    (hcap : 0 < cap)
    (hs : 0 < s.table_.length) (hse : HashSetSequential.Contains hash s e = true)
    (ht : StripedWF t) (htf : HashSetStriped.Contains hash t f = true) :
    Bucketed hash (HashSetSequential.run hash (HashSetSequential.mk cap) ops).table_ ∧
    (HashSetSequential.Contains hash (HashSetSequential.Resize hash s) e = true ∧
      e ∈ (HashSetSequential.Resize hash s).table_.getD (hash e % (s.table_.length * 2)) []) ∧
    (HashSetStriped.Contains hash (HashSetStriped.Resize hash t.capacity_ t) f = true ∧
      f ∈ (HashSetStriped.Resize hash t.capacity_ t).table_.getD
            (hash f % (t.capacity_ * 2)) []) := by
  have hsm : ∃ b ∈ s.table_, e ∈ b := seq_mem_of_contains hash s e hs hse
  have htm : ∃ b ∈ t.table_, f ∈ b := striped_mem_of_contains hash t f ht htf
  refine ⟨?_, ⟨?_, ?_⟩, ⟨?_, ?_⟩⟩
  · exact (seq_wf_run hash ops (HashSetSequential.mk cap)
      (by simpa [HashSetSequential.mk] using hcap) (bucketed_replicate hash cap)).2
  · exact seq_contains_resize_of_mem hash s e hs hsm
  · simp only [HashSetSequential.Resize]
    exact mem_rehash_of_mem hash _ (by omega) _ e hsm
  · exact striped_contains_resize_of_mem hash t f ht.1 htm
  · simp only [HashSetStriped.Resize]
    rw [if_neg (by simp)]
    exact mem_rehash_of_mem hash _ (by have := ht.1; omega) _ f htm

/-- Witness for C5 at hash = identity, capacity 1, one add of 3, and
pre-resize states holding 3. -/
theorem C5_bucket_invariant_witness :
    Bucketed (fun x => x)
      (HashSetSequential.run (fun x => x) (HashSetSequential.mk 1) [Op.add 3]).table_ ∧
    (HashSetSequential.Contains (fun x => x)
        (HashSetSequential.Resize (fun x => x) ⟨1, [[3]]⟩) 3 = true ∧
      3 ∈ (HashSetSequential.Resize (fun x => x)
        (⟨1, [[3]]⟩ : HashSetSequential.State)).table_.getD (3 % (1 * 2)) []) ∧
    (HashSetStriped.Contains (fun x => x)
        (HashSetStriped.Resize (fun x => x)
          (⟨1, 1, [[3]], 1⟩ : HashSetStriped.State).capacity_ ⟨1, 1, [[3]], 1⟩) 3 = true ∧
      3 ∈ (HashSetStriped.Resize (fun x => x)
          (⟨1, 1, [[3]], 1⟩ : HashSetStriped.State).capacity_
          (⟨1, 1, [[3]], 1⟩ : HashSetStriped.State)).table_.getD
            (3 % ((⟨1, 1, [[3]], 1⟩ : HashSetStriped.State).capacity_ * 2)) []) :=
  C5_bucket_invariant (fun x => x) 1 [Op.add 3] ⟨1, [[3]]⟩ ⟨1, 1, [[3]], 1⟩ 3 3
    (by decide) (by decide) (by decide) (by exact ⟨by decide, by decide⟩) (by decide)

/-- C6 (code bug in the coarse-grained variant): running the same
single-threaded operation sequence Add 1, Add 2, Add 3, Remove 2 on the
coarse-grained and sequential sets from capacity 1 yields different
`Contains 2` results (true vs false), because the coarse-grained `Remove`
erases through a copied bucket's iterators. -/
theorem C6_coarse_grained_diverges_from_sequential :
    HashSetCoarseGrained.Contains (fun x => x)
      (HashSetCoarseGrained.run (fun x => x) (HashSetCoarseGrained.mk 1)
        [Op.add 1, Op.add 2, Op.add 3, Op.remove 2]) 2
    ≠ HashSetSequential.Contains (fun x => x)
      (HashSetSequential.run (fun x => x) (HashSetSequential.mk 1)
        [Op.add 1, Op.add 2, Op.add 3, Op.remove 2]) 2 := by
  decide

/-- C7: in the striped and refinable variants, a `Resize` whose previously
read capacity no longer matches the current capacity returns with the
whole state — table, capacity, size, and lock array — unchanged. -/
theorem C7_resize_double_check_abort (hash : Nat → Nat) (old1 old2 : Nat)
    (s : HashSetStriped.State) (r : HashSetRefinable.State)
    (h1 : old1 ≠ s.capacity_) (h2 : old2 ≠ r.capacity_) :
    HashSetStriped.Resize hash old1 s = s ∧ HashSetRefinable.Resize hash old2 r = r :=
  ⟨striped_resize_abort hash old1 s h1, refinable_resize_abort hash old2 r h2⟩

/-- Witness for C7: a stale read of 1 against current capacity 2. -/
theorem C7_resize_double_check_abort_witness :
    HashSetStriped.Resize (fun x => x) 1 (HashSetStriped.mk 2) = HashSetStriped.mk 2 ∧
    HashSetRefinable.Resize (fun x => x) 1 (HashSetRefinable.mk 2) = HashSetRefinable.mk 2 :=
  C7_resize_double_check_abort (fun x => x) 1 1 (HashSetStriped.mk 2) (HashSetRefinable.mk 2)
    (by decide) (by decide)

/-- C8: in the refinable variant, the length of the lock array equals the
bucket capacity after construction and after every sequence of
operations, every internal resize included. -/
theorem C8_lock_array_tracks_capacity (hash : Nat → Nat) (initial_capacity : Nat)
    (ops : List Op) :
    (HashSetRefinable.run hash (HashSetRefinable.mk initial_capacity) ops).mutexes_
      = (HashSetRefinable.run hash (HashSetRefinable.mk initial_capacity) ops).capacity_ :=
  refinable_mutexes_run hash ops (HashSetRefinable.mk initial_capacity) rfl

/-- C9 (code bug): in the coarse-grained variant, both `Add` and `Remove`
run their membership check in `Contains`'s own critical section and only
afterwards acquire the mutex for the mutation, so the mutex IS acquired
after the membership check — the check and the mutation are not inside a
single critical section. -/
theorem C9_membership_check_outside_lock :
    lockNeverAfterCheck coarseGrainedAddEvents = false ∧
    lockNeverAfterCheck coarseGrainedRemoveEvents = false := by
  refine ⟨by decide, by decide⟩

/-- C10: for every variant, `Contains` and `Size` leave the observable
state (table contents, capacity, size, lock-array length) unchanged, and
a `Remove` that returns false leaves the entire state unchanged. -/
theorem C10_query_frame (hash : Nat → Nat) (e : Nat)
    (q : HashSetSequential.State) (c : HashSetCoarseGrained.State)
    (s : HashSetStriped.State) (r : HashSetRefinable.State)
    (hq : (HashSetSequential.Remove hash q e).1 = false)
    (hc : (HashSetCoarseGrained.Remove hash c e).1 = false)
    (hs : (HashSetStriped.Remove hash s e).1 = false)
    (hr : (HashSetRefinable.Remove hash r e).1 = false) :
    HashSetSequential.fullStep hash q (FullOp.fcontains e) = q ∧
    HashSetSequential.fullStep hash q FullOp.fsize = q ∧
    HashSetCoarseGrained.fullStep hash c (FullOp.fcontains e) = c ∧
    HashSetCoarseGrained.fullStep hash c FullOp.fsize = c ∧
    HashSetStriped.fullStep hash s (FullOp.fcontains e) = s ∧
    HashSetStriped.fullStep hash s FullOp.fsize = s ∧
    HashSetRefinable.fullStep hash r (FullOp.fcontains e) = r ∧
    HashSetRefinable.fullStep hash r FullOp.fsize = r ∧
    (HashSetSequential.Remove hash q e).2 = q ∧
    (HashSetCoarseGrained.Remove hash c e).2 = c ∧
    (HashSetStriped.Remove hash s e).2 = s ∧
    (HashSetRefinable.Remove hash r e).2 = r :=
  ⟨rfl, rfl, rfl, rfl, rfl, rfl, rfl, rfl,
   seq_remove_false_frame hash q e hq, coarse_remove_false_frame hash c e hc,
   striped_remove_false_frame hash s e hs, refinable_remove_false_frame hash r e hr⟩

/-- Witness for C10: removing the absent element 5 from freshly
constructed one-bucket sets returns false and changes nothing. -/
theorem C10_query_frame_witness :
    HashSetSequential.fullStep (fun x => x) (HashSetSequential.mk 1) (FullOp.fcontains 5)
      = HashSetSequential.mk 1 ∧
    HashSetSequential.fullStep (fun x => x) (HashSetSequential.mk 1) FullOp.fsize
      = HashSetSequential.mk 1 ∧
    HashSetCoarseGrained.fullStep (fun x => x) (HashSetCoarseGrained.mk 1) (FullOp.fcontains 5)
      = HashSetCoarseGrained.mk 1 ∧
    HashSetCoarseGrained.fullStep (fun x => x) (HashSetCoarseGrained.mk 1) FullOp.fsize
      = HashSetCoarseGrained.mk 1 ∧
    HashSetStriped.fullStep (fun x => x) (HashSetStriped.mk 1) (FullOp.fcontains 5)
      = HashSetStriped.mk 1 ∧
    HashSetStriped.fullStep (fun x => x) (HashSetStriped.mk 1) FullOp.fsize
      = HashSetStriped.mk 1 ∧
    HashSetRefinable.fullStep (fun x => x) (HashSetRefinable.mk 1) (FullOp.fcontains 5)
      = HashSetRefinable.mk 1 ∧
    HashSetRefinable.fullStep (fun x => x) (HashSetRefinable.mk 1) FullOp.fsize
      = HashSetRefinable.mk 1 ∧
    (HashSetSequential.Remove (fun x => x) (HashSetSequential.mk 1) 5).2
      = HashSetSequential.mk 1 ∧
    (HashSetCoarseGrained.Remove (fun x => x) (HashSetCoarseGrained.mk 1) 5).2
      = HashSetCoarseGrained.mk 1 ∧
    (HashSetStriped.Remove (fun x => x) (HashSetStriped.mk 1) 5).2
      = HashSetStriped.mk 1 ∧
    (HashSetRefinable.Remove (fun x => x) (HashSetRefinable.mk 1) 5).2
      = HashSetRefinable.mk 1 :=
  C10_query_frame (fun x => x) 5 (HashSetSequential.mk 1) (HashSetCoarseGrained.mk 1)
    (HashSetStriped.mk 1) (HashSetRefinable.mk 1)
    (by decide) (by decide) (by decide) (by decide)
